import Mathlib

/-!
# randexc: executing an action after a random delay

A shallow embedding of `pkg/randexc/executor.go`.

* Go `error` values are `Option Error` (`none` is `nil`).
* `time.Duration` is an integer count of nanoseconds.
* A function that can panic returns `Except Panic _`.
* The `*Executor` receiver is threaded explicitly: an operation that draws
  from the generator returns the executor it leaves behind.
* Physical time is a natural number of nanoseconds (an instant); the wall
  clock is a function from instants to `time.Time` readings.  How long
  the runtime takes to poll a `select` and to deliver a timer is given by
  the environment (`Runtime`).
-/

namespace Randexc

/-! ## Errors, durations, instants -/

/-- Non-nil Go error values that occur around the package. -/
inductive Error where
  /-- The value `errors.New("time: invalid duration " + quote(orig))`. -/
  | invalidDuration (orig : String)
  /-- The value `errors.New("time: missing unit in duration " + quote(orig))`. -/
  | missingUnit (orig : String)
  /-- The value `errors.New("time: unknown unit " + quote(u) + " in duration " + quote(orig))`. -/
  | unknownUnit (u orig : String)
  /-- The value `fmt.Errorf(msg + ": %w", cause)`. -/
  | wrapped (msg : String) (cause : Error)
  /-- The value `context.Canceled`. -/
  | canceled
  /-- The value `context.DeadlineExceeded`. -/
  | deadlineExceeded
  /-- An error value made by a caller; `id` stands for its identity. -/
  | custom (id : Nat)
  deriving DecidableEq, Repr

/-- A run-time panic, with its message. -/
inductive Panic where
  | msg (text : String)
  deriving DecidableEq, Repr

/-- The type `time.Duration`: a signed count of nanoseconds. -/
abbrev Duration := Int

/-- The type `time.Time`, as nanoseconds since the zero instant of `time.Time`. -/
abbrev Time := Int

/-- The method `Time.IsZero`. -/
def Time.IsZero (t : Time) : Bool := t == 0

/-! ## `time.ParseDuration` (standard library) -/

/-- The table `unitMap` of package `time`. -/
def unitMap (u : String) : Option Nat :=
  if u = "ns" then some 1
  else if u = "us" then some 1000
  else if u = "µs" then some 1000
  else if u = "μs" then some 1000
  else if u = "ms" then some 1000000
  else if u = "s" then some 1000000000
  else if u = "m" then some 60000000000
  else if u = "h" then some 3600000000000
  else none

/-- Whether the character is one of `0` to `9`. -/
def isDigit (c : Char) : Bool := decide (48 ≤ c.toNat) && decide (c.toNat ≤ 57)

/-- The function `leadingInt` of package `time`: the leading digits of `s`
as a number (starting from the accumulator `x`) and the rest of `s`;
`none` is `errLeadingInt` (overflow). -/
def leadingInt : List Char → Nat → Option (Nat × List Char)
  | [], x => some (x, [])
  | c :: cs, x =>
    if !isDigit c then some (x, c :: cs)
    else if x > 2 ^ 63 / 10 then none
    else if x * 10 + (c.toNat - 48) > 2 ^ 63 then none
    else leadingInt cs (x * 10 + (c.toNat - 48))

/-- The function `leadingFraction` of package `time`: the leading digits of
`s` as a numerator `x` over `scale`, digits past the precision of a uint64
being dropped, and the rest of `s`. -/
def leadingFraction : List Char → Nat → Nat → Bool → Nat × Nat × List Char
  | [], x, scale, _ => (x, scale, [])
  | c :: cs, x, scale, overflow =>
    if !isDigit c then (x, scale, c :: cs)
    else if overflow then leadingFraction cs x scale true
    else if x > (2 ^ 63 - 1) / 10 then leadingFraction cs x scale true
    else if x * 10 + (c.toNat - 48) > 2 ^ 63 then leadingFraction cs x scale true
    else leadingFraction cs (x * 10 + (c.toNat - 48)) (scale * 10) false

/-- The unit name at the head of `s`: the characters up to the first `.` or digit. -/
def spanUnit : List Char → List Char × List Char
  | [] => ([], [])
  | c :: cs =>
    if c = '.' ∨ isDigit c then ([], c :: cs)
    else ((c :: (spanUnit cs).1), (spanUnit cs).2)

/-- The position of the highest set bit of `n`, by halving at most `fuel` times. -/
def log2Fuel : Nat → Nat → Nat
  | 0, _ => 0
  | fuel + 1, n => if n < 2 then 0 else log2Fuel fuel (n / 2) + 1

/-- The position of the highest set bit of `n` (0 for `n < 2`). -/
def floorLog2 (n : Nat) : Nat := log2Fuel n n

/-- The float64 nearest to the ratio `p / q`, ties to even, as an exact
fraction whose denominator is a power of two: the rounding every float64
conversion, division and multiplication applies to its exact result.  The
ratio is scaled to a significand of 53 bits, rounded there, and scaled
back.  (The exponent range of a float64 is not modelled: the values
`time.ParseDuration` forms lie between 1e-19 and 1e19.) -/
def roundFloat64 (p q : Nat) : Nat × Nat :=
  if p = 0 ∨ q = 0 then (0, 1)
  else
    let a := floorLog2 q + 53
    let b := if p * 2 ^ a ≥ q * 2 ^ floorLog2 p * 2 ^ 53 then floorLog2 p + 1 else floorLog2 p
    let m0 := p * 2 ^ a / (q * 2 ^ b)
    let r := p * 2 ^ a % (q * 2 ^ b)
    let m := if 2 * r > q * 2 ^ b ∨ (2 * r = q * 2 ^ b ∧ m0 % 2 = 1) then m0 + 1 else m0
    (m * 2 ^ b, 2 ^ a)

/-- The expression `uint64(float64(f) * (float64(unit) / scale))` of
`time.ParseDuration`: `f` is converted to a float64, `unit` divided by
`scale` in float64 (both are exact float64 values: `unit` is at most
3.6e12 and `scale` a power of ten up to 1e19), the two are multiplied in
float64, and the product is truncated to an integer. -/
def fractionNanos (f unit scale : Nat) : Nat :=
  let x := roundFloat64 f 1
  let y := roundFloat64 unit scale
  let z := roundFloat64 (x.1 * y.1) (x.2 * y.2)
  z.1 / z.2

/-- The loop `for s != ""` of `time.ParseDuration`, accumulating the uint64
`d`.  Every round consumes at least the unit, so `fuel` above the length of
`s` is never used up. -/
def parseLoop (orig : String) : Nat → List Char → Nat → Except Error Nat
  | 0, _, d => .ok d
  | _ + 1, [], d => .ok d
  | fuel + 1, c :: cs, d =>
    if !(c = '.' ∨ isDigit c) then .error (.invalidDuration orig)
    else
      match leadingInt (c :: cs) 0 with
      | none => .error (.invalidDuration orig)
      | some (v, s1) =>
        let pre := decide (s1.length ≠ (c :: cs).length)
        let fr : Nat × Nat × List Char × Bool :=
          match s1 with
          | '.' :: s2 =>
            let r := leadingFraction s2 0 1 false
            (r.1, r.2.1, r.2.2, decide (r.2.2.length ≠ s2.length))
          | _ => (0, 1, s1, false)
        if !pre && !fr.2.2.2 then .error (.invalidDuration orig)
        else
          let us := spanUnit fr.2.2.1
          if us.1 = [] then .error (.missingUnit orig)
          else
            match unitMap (String.mk us.1) with
            | none => .error (.unknownUnit (String.mk us.1) orig)
            | some unit =>
              if v > 2 ^ 63 / unit then .error (.invalidDuration orig)
              else
                let v1 := v * unit + (if fr.1 > 0 then fractionNanos fr.1 unit fr.2.1 else 0)
                if fr.1 > 0 ∧ v1 > 2 ^ 63 then .error (.invalidDuration orig)
                else
                  let d1 := (d + v1) % 2 ^ 64
                  if d1 > 2 ^ 63 then .error (.invalidDuration orig)
                  else parseLoop orig fuel us.2 d1

/-- The function `time.ParseDuration`: a signed sequence of decimal numbers
with unit suffixes, as a number of nanoseconds. -/
def ParseDuration (s : String) : Except Error Duration :=
  let cs := s.data
  let neg := decide (cs.head? = some '-')
  let body := if cs.head? = some '-' ∨ cs.head? = some '+' then cs.tail else cs
  if body = ['0'] then .ok 0
  else if body = [] then .error (.invalidDuration s)
  else
    match parseLoop s (body.length + 1) body 0 with
    | .error err => .error err
    | .ok d =>
      if neg then .ok (-(d : Int))
      else if d > 2 ^ 63 - 1 then .error (.invalidDuration s)
      else .ok (d : Int)

/-! ## `math/rand` (standard library) -/

/-- A generator `*rand.Rand` as this package uses it: a state and the
bounded draw behind `Int63n`.  `draw s n` is the value `Int63n(n)` returns
in state `s` together with the state it leaves; the library documents the
value to lie in the half-open interval from `0` to `n` when `n` is
positive. -/
structure Rand where
  State : Type
  state : State
  draw : State → Int → Int × State
  draw_range : ∀ s n, 0 < n → 0 ≤ (draw s n).1 ∧ (draw s n).1 < n

/-- The method `Rand.Int63n`: panics when `n <= 0`, otherwise returns one
bounded draw and the advanced generator. -/
def Rand.Int63n (r : Rand) (n : Int) : Except Panic (Int × Rand) :=
  if n ≤ 0 then .error (.msg "invalid argument to Int63n")
  else .ok ((r.draw r.state n).1, ⟨r.State, (r.draw r.state n).2, r.draw, r.draw_range⟩)

/-- The step of a linear congruential generator on 64 bits. -/
def lcgNext (s : Nat) : Nat := (s * 6364136223846793005 + 1442695040888963407) % 2 ^ 64

/-- A concrete generator: a linear congruential state, reduced modulo the bound. -/
def lcg (seed : Nat) : Rand where
  State := Nat
  state := seed
  draw := fun s n => ((s : Int) % n, lcgNext s)
  draw_range := fun _ _ h => ⟨Int.emod_nonneg _ (ne_of_gt h), Int.emod_lt_of_pos _ h⟩

/-! ## The executor -/

/-- The struct `Executor`.  The mutex `mu` only serialises draws and has no
sequential content. -/
structure Executor where
  maxDuration : Duration
  rand : Rand

/-- The struct `Result`. -/
structure Result where
  Error : Option Error
  StartTime : Time
  EndTime : Time
  deriving DecidableEq, Repr

/-- The type `Option` of the package, `func(*Executor) error`: the executor
as the call leaves it, and the error returned. -/
abbrev OptionFn := Executor → Executor × Option Error

/-- The loop `for _, opt := range opts` of `New`, run on the executor `e`:
the pair `New` returns, and the number of options that were called. -/
def optionLoop (e : Executor) : List OptionFn → (Option Executor × Option Error) × Nat
  | [] => ((some e, none), 0)
  | opt :: rest =>
    match opt e with
    | (_, some err) => ((none, some err), 1)
    | (e1, none) => ((optionLoop e1 rest).1, (optionLoop e1 rest).2 + 1)

/-- The function `New`.  `seeded` is the generator
`rand.New(rand.NewSource(time.Now().UnixNano()))`. -/
def New (seeded : Rand) (maxDuration : String) (opts : List OptionFn) :
    Option Executor × Option Error :=
  match ParseDuration maxDuration with
  | .error err => (none, some (.wrapped "invalid duration" err))
  | .ok duration => (optionLoop ⟨duration, seeded⟩ opts).1

/-- The method `randomDelay`: one `Int63n(int64(e.maxDuration))` on the
executor's generator. -/
def randomDelay (e : Executor) : Except Panic (Duration × Executor) :=
  match e.rand.Int63n e.maxDuration with
  | .error p => .error p
  | .ok (v, r) => .ok (v, ⟨e.maxDuration, r⟩)

/-- The option `WithRandSource`; `source` is the generator `rand.New(source)`. -/
def WithRandSource (source : Rand) : OptionFn :=
  fun e => (⟨e.maxDuration, source⟩, none)

/-- The option `WithMaxDuration`. -/
def WithMaxDuration (duration : String) : OptionFn :=
  fun e =>
    match ParseDuration duration with
    | .error err => (e, some (.wrapped "invalid duration" err))
    | .ok d => (⟨d, e.rand⟩, none)

/-! ## Cancellation, timers and `select` -/

/-- A `context.Context` as `Execute` observes it: the instant at which
`Done()` is closed (`none`: never) and the error `Err()` reports from then on. -/
structure Context where
  doneAt : Option Nat
  reason : Error

/-- Whether the channel `ctx.Done()` is closed at instant `t`. -/
def Context.Done (ctx : Context) (t : Nat) : Bool :=
  match ctx.doneAt with
  | some c => decide (c ≤ t)
  | none => false

/-- The method `ctx.Err()` called at instant `t`: `nil` until `Done()` is closed. -/
def Context.Err (ctx : Context) (t : Nat) : Option Error :=
  if ctx.Done t then some ctx.reason else none

/-- The value `context.Background()`: never done (its `reason` is never read). -/
def Context.Background : Context := ⟨none, .canceled⟩

/-- A context cancelled at instant `t`. -/
def Context.canceledAt (t : Nat) : Context := ⟨some t, .canceled⟩

/-- An action `func() error`: called at an instant, it returns an error
value after some nanoseconds. -/
abbrev Action := Nat → Option Error × Nat

/-- The two cases of the `select` in `Execute`. -/
inductive Case where
  /-- The case `<-ctx.Done()`. -/
  | done
  /-- The case `<-time.After(delay)`. -/
  | after
  deriving DecidableEq, Repr

/-- What the runtime decides in one call of `Execute`: the case `select`
picks when both can proceed (a uniform pseudo-random choice in Go), the
nanoseconds that pass between the creation of the timer and the poll of
the `select`, and the nanoseconds by which the timer's value is delivered
after its due instant (a timer fires after at least its duration). -/
structure Runtime where
  tie : Case
  pollLag : Nat
  timerLag : Nat

/-- The `select` statement of `Execute`, the timer of `time.After(delay)`
being created at instant `t0`: the case that proceeds and the instant at
which it does.  The timer's value is delivered at
`t0 + delay + rt.timerLag` and the `select` is polled at `t0 + rt.pollLag`.
As the language defines it: when both communications can proceed at the
poll one of them is chosen pseudo-randomly (`rt.tie`), when only one can it
is taken, and otherwise the statement blocks until the first of the two
can (`rt.tie` again if both do at the same instant). -/
def selectCase (rt : Runtime) (ctx : Context) (t0 : Nat) (delay : Duration) : Case × Nat :=
  let fire := t0 + delay.toNat + rt.timerLag
  let poll := t0 + rt.pollLag
  if ctx.Done poll && decide (fire ≤ poll) then (rt.tie, poll)
  else if ctx.Done poll then (.done, poll)
  else if fire ≤ poll then (.after, poll)
  else
    match ctx.doneAt with
    | none => (.after, fire)
    | some c =>
      if c < fire then (.done, c)
      else if fire < c then (.after, fire)
      else (rt.tie, fire)

/-- What one call of `Execute` does: the error returned, the number of
calls of the action, the delay that was drawn, the instant of return and
the executor left behind. -/
structure Outcome where
  ret : Option Error
  calls : Nat
  delay : Duration
  finish : Nat
  exec : Executor

/-- The method `Execute`, called at instant `t0`. -/
def Execute (rt : Runtime) (e : Executor) (ctx : Context) (action : Action) (t0 : Nat) :
    Except Panic Outcome :=
  match randomDelay e with
  | .error p => .error p
  | .ok (delay, e1) =>
    match selectCase rt ctx t0 delay with
    | (.done, t) => .ok ⟨ctx.Err t, 0, delay, t, e1⟩
    | (.after, t) => .ok ⟨(action t).1, 1, delay, t + (action t).2, e1⟩

/-- A buffered channel of results: its capacity and the values queued. -/
structure Chan where
  cap : Nat
  buf : List Result
  deriving DecidableEq, Repr

/-- The expression `make(chan Result, n)`. -/
def Chan.make (n : Nat) : Chan := ⟨n, []⟩

/-- A send on the channel with no receiver waiting: `none` when it would block. -/
def Chan.send (c : Chan) (r : Result) : Option Chan :=
  if c.buf.length < c.cap then some ⟨c.cap, c.buf ++ [r]⟩ else none

/-- The method `ExecuteAsync`, its goroutine starting at instant `t0` and
run to its end before the channel is read: the channel after the send
(`none` if the send blocks) and what the inner `Execute` did.  `wall t` is
what `time.Now()` reads at instant `t`. -/
def ExecuteAsync (wall : Nat → Time) (rt : Runtime) (e : Executor) (ctx : Context)
    (action : Action) (t0 : Nat) : Except Panic (Option Chan × Outcome) :=
  let resultChan := Chan.make 1
  let startTime := wall t0
  match Execute rt e ctx action t0 with
  | .error p => .error p
  | .ok out => .ok (resultChan.send ⟨out.ret, startTime, wall out.finish⟩, out)

/-! ## Reference definitions used in the statements -/

/-- The options applied one after the other, each to the executor the
previous one left, without looking at the errors. -/
def foldOptions (e : Executor) (opts : List OptionFn) : Executor :=
  opts.foldl (fun acc opt => (opt acc).1) e

/-- The first `k` values of successive calls `Int63n(n)` on a generator. -/
def Rand.draws (n : Int) : Nat → Rand → Except Panic (List Int)
  | 0, _ => .ok []
  | k + 1, r =>
    match r.Int63n n with
    | .error p => .error p
    | .ok (v, r1) =>
      match Rand.draws n k r1 with
      | .error p => .error p
      | .ok vs => .ok (v :: vs)

/-- The first `k` values of successive calls of `randomDelay`. -/
def delays : Nat → Executor → Except Panic (List Duration)
  | 0, _ => .ok []
  | k + 1, e =>
    match randomDelay e with
    | .error p => .error p
    | .ok (d, e1) =>
      match delays k e1 with
      | .error p => .error p
      | .ok ds => .ok (d :: ds)

/-- The circumstances of one call of `Execute`. -/
structure Call where
  rt : Runtime
  ctx : Context
  action : Action
  t0 : Nat

/-- Successive calls of `Execute` on one executor. -/
def executeAll : List Call → Executor → Except Panic (List Outcome)
  | [], _ => .ok []
  | c :: cs, e =>
    match Execute c.rt e c.ctx c.action c.t0 with
    | .error p => .error p
    | .ok out =>
      match executeAll cs out.exec with
      | .error p => .error p
      | .ok outs => .ok (out :: outs)

/-! ## Lemmas -/

set_option maxRecDepth 100000 in
/-- The parser on fractions that a float64 cannot hold exactly: the values
are those of the library's float64 arithmetic, not of exact division. -/
theorem ParseDuration_float64_fractions :
    ParseDuration "0.00100000000000us" = .ok 0 ∧
    ParseDuration "0.9999999999999999ns" = .ok 1 ∧
    ParseDuration "0.20000000000000m" = .ok 11999999999 ∧
    ParseDuration "9223372036854775807.9999999999999999ns" =
      .error (.invalidDuration "9223372036854775807.9999999999999999ns") ∧
    ParseDuration "1.5h" = .ok 5400000000000 :=
  ⟨rfl, rfl, rfl, rfl, rfl⟩


theorem optionLoop_first_error (opts : List OptionFn) :
    ∀ (e : Executor) (i : Nat) (err : Error),
      (∀ (j : Nat) (o : OptionFn), j < i → opts[j]? = some o → (o (foldOptions e (opts.take j))).2 = none) →
      (∃ o, opts[i]? = some o ∧ (o (foldOptions e (opts.take i))).2 = some err) →
      optionLoop e opts = ((none, some err), i + 1) := by
  induction opts with
  | nil =>
    intro e i err _ h
    obtain ⟨o, ho, _⟩ := h
    simp at ho
  | cons a rest ih =>
    intro e i err hprev h
    obtain ⟨o, ho, herr⟩ := h
    cases i with
    | zero =>
      simp at ho
      subst ho
      simp [foldOptions] at herr
      cases hae : a e with
      | mk e1 r =>
        rw [hae] at herr
        simp at herr
        subst herr
        simp [optionLoop, hae]
    | succ i =>
      have h0 : (a e).2 = none := by
        have := hprev 0 a (Nat.succ_pos i) (by simp)
        simpa [foldOptions] using this
      cases hae : a e with
      | mk e1 r =>
        rw [hae] at h0
        simp at h0
        subst h0
        have hrec := ih e1 i err
          (fun j o hj hjo => by
            have := hprev (j + 1) o (Nat.succ_lt_succ hj) (by simpa using hjo)
            simpa [foldOptions, hae] using this)
          ⟨o, by simpa using ho, by simpa [foldOptions, hae] using herr⟩
        simp [optionLoop, hae, hrec]

theorem optionLoop_no_error (opts : List OptionFn) :
    ∀ (e : Executor),
      (∀ (j : Nat) (o : OptionFn), opts[j]? = some o →
        (o (foldOptions e (opts.take j))).2 = none) →
      optionLoop e opts = ((some (foldOptions e opts), none), opts.length) := by
  induction opts with
  | nil =>
    intro e _
    simp [optionLoop, foldOptions]
  | cons a rest ih =>
    intro e hall
    have h0 : (a e).2 = none := by
      have := hall 0 a (by simp)
      simpa [foldOptions] using this
    cases hae : a e with
    | mk e1 r =>
      rw [hae] at h0
      simp at h0
      subst h0
      have hrec := ih e1
        (fun j o hjo => by
          have := hall (j + 1) o (by simpa using hjo)
          simpa [foldOptions, hae] using this)
      simp [optionLoop, hae, hrec, foldOptions]

theorem randomDelay_eq (e : Executor) (hpos : 0 < e.maxDuration) :
    randomDelay e =
      .ok ((e.rand.draw e.rand.state e.maxDuration).1,
        ⟨e.maxDuration, ⟨e.rand.State, (e.rand.draw e.rand.state e.maxDuration).2,
          e.rand.draw, e.rand.draw_range⟩⟩) := by
  simp [randomDelay, Rand.Int63n, not_le.mpr hpos]

theorem randomDelay_bounds (e e1 : Executor) (d : Duration)
    (h : randomDelay e = .ok (d, e1)) :
    0 < e.maxDuration ∧ 0 ≤ d ∧ d < e.maxDuration ∧ e1.maxDuration = e.maxDuration := by
  unfold randomDelay Rand.Int63n at h
  by_cases hn : e.maxDuration ≤ 0
  · simp [hn] at h
  · simp [hn] at h
    have hpos : 0 < e.maxDuration := not_le.mp hn
    obtain ⟨hd, he⟩ := h
    have hr := e.rand.draw_range e.rand.state e.maxDuration hpos
    subst hd
    subst he
    exact ⟨hpos, hr.1, hr.2, rfl⟩

theorem Execute_draw (rt : Runtime) (e : Executor) (ctx : Context) (action : Action)
    (t0 : Nat) :
    (Execute rt e ctx action t0).map (fun o => (o.delay, o.exec)) = randomDelay e := by
  unfold Execute
  cases hr : randomDelay e with
  | error p => rfl
  | ok v =>
    obtain ⟨delay, e1⟩ := v
    cases hs : selectCase rt ctx t0 delay with
    | mk c t =>
      cases c <;> simp [hs, Except.map]

theorem delays_eq_draws (k : Nat) :
    ∀ e : Executor, delays k e = Rand.draws e.maxDuration k e.rand := by
  induction k with
  | zero => intro e; rfl
  | succ k ih =>
    intro e
    unfold delays Rand.draws randomDelay
    cases hr : e.rand.Int63n e.maxDuration with
    | error p => rfl
    | ok v =>
      obtain ⟨d, r1⟩ := v
      simp only []
      rw [ih ⟨e.maxDuration, r1⟩]
      rfl

theorem executeAll_delays (calls : List Call) :
    ∀ e : Executor,
      (executeAll calls e).map (List.map Outcome.delay) =
        Rand.draws e.maxDuration calls.length e.rand := by
  induction calls with
  | nil => intro e; rfl
  | cons c cs ih =>
    intro e
    have hd := Execute_draw c.rt e c.ctx c.action c.t0
    unfold executeAll
    simp only [List.length_cons]
    unfold Rand.draws
    unfold randomDelay at hd
    cases hx : Execute c.rt e c.ctx c.action c.t0 with
    | error p =>
      rw [hx] at hd
      cases hr : e.rand.Int63n e.maxDuration with
      | error q =>
        rw [hr] at hd
        simp only [Except.map] at hd ⊢
        injection hd with hd
        rw [hd]
      | ok v => rw [hr] at hd; cases hd
    | ok out =>
      rw [hx] at hd
      cases hr : e.rand.Int63n e.maxDuration with
      | error q => rw [hr] at hd; cases hd
      | ok v =>
        obtain ⟨d, r1⟩ := v
        rw [hr] at hd
        simp only [Except.map] at hd
        injection hd with hd
        have h1 : out.delay = d := congrArg Prod.fst hd
        have h2 : out.exec = ⟨e.maxDuration, r1⟩ := congrArg Prod.snd hd
        have hi := ih out.exec
        rw [h2] at hi
        simp only [] at hi
        simp only []
        rw [h2, ← hi]
        cases hrest : executeAll cs ⟨e.maxDuration, r1⟩ with
        | error q => rfl
        | ok outs => simp [Except.map, h1]

theorem selectCase_done_first (rt : Runtime) (ctx : Context) (t0 : Nat) (delay : Duration)
    (hdone : ctx.Done (t0 + rt.pollLag) = true)
    (hlate : t0 + rt.pollLag < t0 + delay.toNat + rt.timerLag) :
    selectCase rt ctx t0 delay = (.done, t0 + rt.pollLag) := by
  simp [selectCase, hdone, not_le.mpr hlate]

theorem selectCase_timer_first (rt : Runtime) (ctx : Context) (t0 : Nat) (delay : Duration)
    (hfirst : ∀ c, ctx.doneAt = some c →
      t0 + delay.toNat + rt.timerLag < c ∧ t0 + rt.pollLag < c) :
    selectCase rt ctx t0 delay =
      (.after, max (t0 + delay.toNat + rt.timerLag) (t0 + rt.pollLag)) := by
  have hnd : ctx.Done (t0 + rt.pollLag) = false := by
    unfold Context.Done
    cases hc : ctx.doneAt with
    | none => rfl
    | some c =>
      have := (hfirst c hc).2
      simp
      omega
  by_cases hd : t0 + delay.toNat + rt.timerLag ≤ t0 + rt.pollLag
  · simp [selectCase, hnd, hd, max_eq_right hd]
  · have hmax : max (t0 + delay.toNat + rt.timerLag) (t0 + rt.pollLag) =
        t0 + delay.toNat + rt.timerLag := max_eq_left (by omega)
    cases hc : ctx.doneAt with
    | none => simp [selectCase, hnd, hd, hc, hmax]
    | some c =>
      have h1 := (hfirst c hc).1
      have h2 : ¬ c < t0 + delay.toNat + rt.timerLag := by omega
      simp [selectCase, hnd, hd, hc, h1, h2, hmax]

theorem selectCase_ge (rt : Runtime) (ctx : Context) (t0 : Nat) (delay : Duration) :
    t0 ≤ (selectCase rt ctx t0 delay).2 := by
  unfold selectCase
  by_cases hd : ctx.Done (t0 + rt.pollLag) = true
  · by_cases hz : t0 + delay.toNat + rt.timerLag ≤ t0 + rt.pollLag <;> simp [hd, hz]
  · have hd1 : ctx.Done (t0 + rt.pollLag) = false := by simpa using hd
    by_cases hz : t0 + delay.toNat + rt.timerLag ≤ t0 + rt.pollLag
    · simp [hd1, hz]
    · cases hc : ctx.doneAt with
      | none =>
        simp [hd1, hz]
        omega
      | some c =>
        have hlt : t0 + rt.pollLag < c := by
          unfold Context.Done at hd1
          rw [hc] at hd1
          simpa using hd1
        simp only [hd1, hz, Bool.false_and, decide_False, Bool.false_eq_true, if_false]
        split_ifs
        · simp; omega
        · simp; omega
        · simp; omega

theorem Execute_cases (rt : Runtime) (e : Executor) (ctx : Context) (action : Action)
    (t0 : Nat) (out : Outcome) (h : Execute rt e ctx action t0 = .ok out) :
    ∃ delay e1 t, randomDelay e = .ok (delay, e1) ∧
      ((selectCase rt ctx t0 delay = (.done, t) ∧ out = ⟨ctx.Err t, 0, delay, t, e1⟩) ∨
       (selectCase rt ctx t0 delay = (.after, t) ∧
          out = ⟨(action t).1, 1, delay, t + (action t).2, e1⟩)) := by
  unfold Execute at h
  cases hr : randomDelay e with
  | error p => rw [hr] at h; cases h
  | ok v =>
    obtain ⟨delay, e1⟩ := v
    rw [hr] at h
    simp only [] at h
    cases hs : selectCase rt ctx t0 delay with
    | mk c t =>
      rw [hs] at h
      cases c with
      | done =>
        simp only [] at h
        injection h with h
        exact ⟨delay, e1, t, rfl, Or.inl ⟨hs, h.symm⟩⟩
      | after =>
        simp only [] at h
        injection h with h
        exact ⟨delay, e1, t, rfl, Or.inr ⟨hs, h.symm⟩⟩

theorem Execute_finish_ge (rt : Runtime) (e : Executor) (ctx : Context) (action : Action)
    (t0 : Nat) (out : Outcome) (h : Execute rt e ctx action t0 = .ok out) :
    t0 ≤ out.finish := by
  obtain ⟨delay, e1, t, _, hc⟩ := Execute_cases rt e ctx action t0 out h
  have hsel := selectCase_ge rt ctx t0 delay
  rcases hc with ⟨hs, ho⟩ | ⟨hs, ho⟩
  · rw [hs] at hsel
    subst ho
    exact hsel
  · rw [hs] at hsel
    subst ho
    exact le_trans hsel (Nat.le_add_right _ _)

theorem Execute_returns (rt : Runtime) (e e1 : Executor) (ctx : Context) (action : Action)
    (t0 : Nat) (delay : Duration) (hdraw : randomDelay e = .ok (delay, e1)) :
    ∃ out, Execute rt e ctx action t0 = .ok out ∧ out.delay = delay ∧ out.exec = e1 ∧
      (out.calls = 0 ∨ out.calls = 1) := by
  cases hs : selectCase rt ctx t0 delay with
  | mk c t =>
    cases c with
    | done =>
      exact ⟨⟨ctx.Err t, 0, delay, t, e1⟩, by simp [Execute, hdraw, hs], rfl, rfl, Or.inl rfl⟩
    | after =>
      exact ⟨⟨(action t).1, 1, delay, t + (action t).2, e1⟩, by simp [Execute, hdraw, hs],
        rfl, rfl, Or.inr rfl⟩

/-! ## Construction -/

/-- C1 (as stated, refuted): the strings `0s` and `-1s` parse to the
non-positive durations 0 and -1s, and `New` returns an executor and a nil
error for both. -/
theorem New_accepts_nonpositive :
    ParseDuration "0s" = .ok 0 ∧
    (New (lcg 0) "0s" []).2 = none ∧
    (New (lcg 0) "0s" []).1.map (fun e => e.maxDuration) = some 0 ∧
    ParseDuration "-1s" = .ok (-1000000000) ∧
    (New (lcg 0) "-1s" []).2 = none ∧
    (New (lcg 0) "-1s" []).1.map (fun e => e.maxDuration) = some (-1000000000) :=
  ⟨rfl, rfl, rfl, rfl, rfl, rfl⟩

/-- C1 (amended): for every duration string that cannot be parsed, `New`
with no options returns no executor and a non-nil error, the parser's error
wrapped as "invalid duration". -/
theorem New_unparsable (seeded : Rand) (s : String) (err : Error)
    (h : ParseDuration s = .error err) :
    New seeded s [] = (none, some (.wrapped "invalid duration" err)) := by
  simp [New, h]

theorem New_unparsable_witness :
    New (lcg 0) "invalid" [] =
      (none, some (.wrapped "invalid duration" (.invalidDuration "invalid"))) :=
  New_unparsable (lcg 0) "invalid" (.invalidDuration "invalid") rfl

/-- C5: for every duration string that parses to a duration above zero,
`New` with no options returns a nil error and an executor whose
`maxDuration` is the parsed value (and whose generator is the seeded one). -/
theorem New_valid (seeded : Rand) (s : String) (d : Duration)
    (h : ParseDuration s = .ok d) (hpos : 0 < d) :
    New seeded s [] = (some ⟨d, seeded⟩, none) ∧
      (New seeded s []).1.map (fun e => e.maxDuration) = some d := by
  have _ := hpos
  simp [New, h, optionLoop]

theorem New_valid_witness :
    New (lcg 0) "1h" [] = (some ⟨3600000000000, lcg 0⟩, none) ∧
      (New (lcg 0) "1h" []).1.map (fun e => e.maxDuration) = some 3600000000000 :=
  New_valid (lcg 0) "1h" 3600000000000 rfl (by decide)

/-- C6 (as stated, refuted): `0s` parses to the duration 0 and
`New("1s", WithMaxDuration("0s"))` returns a nil error and an executor with
`maxDuration` 0. -/
theorem WithMaxDuration_accepts_nonpositive :
    ParseDuration "1s" = .ok 1000000000 ∧
    ParseDuration "0s" = .ok 0 ∧
    (New (lcg 0) "1s" [WithMaxDuration "0s"]).2 = none ∧
    (New (lcg 0) "1s" [WithMaxDuration "0s"]).1.map (fun e => e.maxDuration) = some 0 :=
  ⟨rfl, rfl, rfl, rfl⟩

/-- C6 (amended): for every base duration string `d` that parses to a
duration above zero and every string `s`, `New(d, WithMaxDuration(s))`
fails (no executor, the parser's error wrapped) when `s` cannot be parsed,
and succeeds with `maxDuration` equal to the parsed value of `s` when that
value is above zero. -/
theorem New_WithMaxDuration (seeded : Rand) (d s : String) (base : Duration)
    (hd : ParseDuration d = .ok base) (hbase : 0 < base) :
    (∀ err, ParseDuration s = .error err →
      New seeded d [WithMaxDuration s] = (none, some (.wrapped "invalid duration" err))) ∧
    (∀ v, ParseDuration s = .ok v → 0 < v →
      New seeded d [WithMaxDuration s] = (some ⟨v, seeded⟩, none)) := by
  have _ := hbase
  constructor
  · intro err hs
    simp [New, hd, optionLoop, WithMaxDuration, hs]
  · intro v hs _
    simp [New, hd, optionLoop, WithMaxDuration, hs]

theorem New_WithMaxDuration_witness :
    New (lcg 0) "1s" [WithMaxDuration "bogus"] =
      (none, some (.wrapped "invalid duration" (.invalidDuration "bogus"))) ∧
    New (lcg 0) "1s" [WithMaxDuration "2s"] = (some ⟨2000000000, lcg 0⟩, none) :=
  ⟨(New_WithMaxDuration (lcg 0) "1s" "bogus" 1000000000 rfl (by decide)).1
      (.invalidDuration "bogus") rfl,
    (New_WithMaxDuration (lcg 0) "1s" "2s" 1000000000 rfl (by decide)).2
      2000000000 rfl (by decide)⟩

/-- C7: `New` applies its options from left to right, each to the executor
the previous ones left.  If option `i` is the first to return an error,
`New` returns that very error and no executor, and exactly `i + 1` options
were called (none after `i`).  If none returns an error, `New` returns the
fold of all the options over the initial executor, all of them having been
called; in particular a later `WithMaxDuration` overrides an earlier one. -/
theorem New_options_in_order (seeded : Rand) (s : String) (base : Duration)
    (h : ParseDuration s = .ok base) (opts : List OptionFn) :
    (∀ (i : Nat) (err : Error),
      (∀ (j : Nat) (o : OptionFn), j < i → opts[j]? = some o →
        (o (foldOptions ⟨base, seeded⟩ (opts.take j))).2 = none) →
      (∃ o, opts[i]? = some o ∧
        (o (foldOptions ⟨base, seeded⟩ (opts.take i))).2 = some err) →
      New seeded s opts = (none, some err) ∧
        (optionLoop ⟨base, seeded⟩ opts).2 = i + 1) ∧
    ((∀ (j : Nat) (o : OptionFn), opts[j]? = some o →
        (o (foldOptions ⟨base, seeded⟩ (opts.take j))).2 = none) →
      New seeded s opts = (some (foldOptions ⟨base, seeded⟩ opts), none) ∧
        (optionLoop ⟨base, seeded⟩ opts).2 = opts.length) ∧
    (∀ (a b : String) (va vb : Duration),
      ParseDuration a = .ok va → ParseDuration b = .ok vb →
      New seeded s [WithMaxDuration a, WithMaxDuration b] = (some ⟨vb, seeded⟩, none)) := by
  refine ⟨?_, ?_, ?_⟩
  · intro i err hprev hi
    have hl := optionLoop_first_error opts ⟨base, seeded⟩ i err hprev hi
    simp [New, h, hl]
  · intro hall
    have hl := optionLoop_no_error opts ⟨base, seeded⟩ hall
    simp [New, h, hl]
  · intro a b va vb ha hb
    simp [New, h, optionLoop, WithMaxDuration, ha, hb]

theorem New_options_in_order_witness :
    New (lcg 0) "1s" [WithMaxDuration "2s", WithMaxDuration "bad", WithRandSource (lcg 7)] =
      (none, some (.wrapped "invalid duration" (.invalidDuration "bad"))) ∧
    (optionLoop ⟨1000000000, lcg 0⟩
      [WithMaxDuration "2s", WithMaxDuration "bad", WithRandSource (lcg 7)]).2 = 2 ∧
    New (lcg 0) "1s" [WithMaxDuration "2s", WithMaxDuration "3s"] =
      (some ⟨3000000000, lcg 0⟩, none) := by
  have hw := New_options_in_order (lcg 0) "1s" 1000000000 rfl
    [WithMaxDuration "2s", WithMaxDuration "bad", WithRandSource (lcg 7)]
  have h1 := hw.1 1 (.invalidDuration "bad" |> .wrapped "invalid duration")
    (by
      intro j o hj hjo
      obtain rfl : j = 0 := by omega
      simp at hjo
      subst hjo
      rfl)
    ⟨WithMaxDuration "bad", rfl, rfl⟩
  exact ⟨h1.1, h1.2, hw.2.2 "2s" "3s" 2000000000 3000000000 rfl rfl⟩

/-! ## Drawing the delay -/

/-- C3 (the code at the failing input): `New("0s")` returns an executor and
a nil error, and `randomDelay` on that executor panics in `Int63n(0)`
instead of returning a delay. -/
theorem randomDelay_panics_on_zero :
    (New (lcg 0) "0s" []).2 = none ∧
    (New (lcg 0) "0s" []).1.map (fun e => (randomDelay e).map Prod.fst) =
      some (.error (.msg "invalid argument to Int63n")) :=
  ⟨rfl, rfl⟩

/-- Where the bound does hold: for every executor `New` returns (with any
list of options) whose `maxDuration` is above zero, and every state `r` of
its generator, `randomDelay` returns a delay `d` with `0 <= d < maxDuration`
and leaves `maxDuration` unchanged. -/
theorem randomDelay_in_range (seeded : Rand) (s : String) (opts : List OptionFn)
    (e : Executor) (h : New seeded s opts = (some e, none)) (hpos : 0 < e.maxDuration)
    (r : Rand) :
    ∃ d r1, randomDelay ⟨e.maxDuration, r⟩ = .ok (d, ⟨e.maxDuration, r1⟩) ∧
      0 ≤ d ∧ d < e.maxDuration := by
  have _ := h
  have heq := randomDelay_eq ⟨e.maxDuration, r⟩ hpos
  have hb := randomDelay_bounds _ _ _ heq
  exact ⟨_, _, heq, hb.2.1, hb.2.2.1⟩

theorem randomDelay_in_range_witness :
    ∃ d r1, randomDelay ⟨1000000000, lcg 42⟩ = .ok (d, ⟨1000000000, r1⟩) ∧
      0 ≤ d ∧ d < 1000000000 :=
  randomDelay_in_range (lcg 0) "1s" [WithRandSource (lcg 42)] ⟨1000000000, lcg 42⟩ rfl
    (by decide) (lcg 42)

/-- C10: the delays are a function of the installed generator alone.  For
the executor `New(s, WithRandSource(src))` builds: `randomDelay` is one
call `Int63n(maxDuration)` on `src`, every `Execute` (whatever its
cancellation signal, action and instant) draws exactly that one value and
leaves the generator one draw further, the first `k` delays of successive
`randomDelay` or `Execute` calls are the first `k` draws
`Int63n(maxDuration)` of `src`, and a second executor built from a
generator in the same state with the same `maxDuration` yields the same
delays. -/
theorem delays_follow_source (seeded src : Rand) (s : String) (m : Duration)
    (h : ParseDuration s = .ok m) :
    ∃ e, New seeded s [WithRandSource src] = (some e, none) ∧
      e.maxDuration = m ∧ e.rand = src ∧
      (∀ rt ctx action t0,
        (Execute rt e ctx action t0).map (fun o => (o.delay, o.exec.rand)) =
          src.Int63n m) ∧
      (∀ k, delays k e = Rand.draws m k src) ∧
      (∀ calls : List Call,
        (executeAll calls e).map (List.map Outcome.delay) =
          Rand.draws m calls.length src) ∧
      (∀ (seeded2 : Rand) (s2 : String) (e2 : Executor), ParseDuration s2 = .ok m →
        New seeded2 s2 [WithRandSource src] = (some e2, none) →
        ∀ calls1 calls2 : List Call, calls1.length = calls2.length →
          (executeAll calls1 e).map (List.map Outcome.delay) =
            (executeAll calls2 e2).map (List.map Outcome.delay)) := by
  refine ⟨⟨m, src⟩, by simp [New, h, optionLoop, WithRandSource], rfl, rfl, ?_, ?_, ?_, ?_⟩
  · intro rt ctx action t0
    have hd := Execute_draw rt ⟨m, src⟩ ctx action t0
    unfold randomDelay at hd
    cases hx : Execute rt ⟨m, src⟩ ctx action t0 with
    | error p =>
      rw [hx] at hd
      cases hr : src.Int63n m with
      | error q =>
        rw [hr] at hd
        simp only [Except.map] at hd ⊢
        injection hd with hd
        rw [hd]
      | ok v => rw [hr] at hd; cases hd
    | ok out =>
      rw [hx] at hd
      cases hr : src.Int63n m with
      | error q => rw [hr] at hd; cases hd
      | ok v =>
        obtain ⟨d, r1⟩ := v
        rw [hr] at hd
        simp only [Except.map] at hd ⊢
        injection hd with hd
        have h1 : out.delay = d := congrArg Prod.fst hd
        have h2 : out.exec = ⟨m, r1⟩ := congrArg Prod.snd hd
        rw [h1, h2]
  · intro k
    exact delays_eq_draws k ⟨m, src⟩
  · intro calls
    exact executeAll_delays calls ⟨m, src⟩
  · intro seeded2 s2 e2 h2 hnew calls1 calls2 hlen
    have he2 : e2 = ⟨m, src⟩ := by
      simp [New, h2, optionLoop, WithRandSource] at hnew
      exact hnew.symm
    subst he2
    rw [executeAll_delays calls1, executeAll_delays calls2, hlen]

theorem delays_follow_source_witness :
    ∃ e, New (lcg 0) "1s" [WithRandSource (lcg 42)] = (some e, none) ∧
      e.maxDuration = 1000000000 ∧ e.rand = lcg 42 ∧
      (∀ rt ctx action t0,
        (Execute rt e ctx action t0).map (fun o => (o.delay, o.exec.rand)) =
          (lcg 42).Int63n 1000000000) ∧
      (∀ k, delays k e = Rand.draws 1000000000 k (lcg 42)) ∧
      (∀ calls : List Call,
        (executeAll calls e).map (List.map Outcome.delay) =
          Rand.draws 1000000000 calls.length (lcg 42)) ∧
      (∀ (seeded2 : Rand) (s2 : String) (e2 : Executor),
        ParseDuration s2 = .ok 1000000000 →
        New seeded2 s2 [WithRandSource (lcg 42)] = (some e2, none) →
        ∀ calls1 calls2 : List Call, calls1.length = calls2.length →
          (executeAll calls1 e).map (List.map Outcome.delay) =
            (executeAll calls2 e2).map (List.map Outcome.delay)) :=
  delays_follow_source (lcg 0) (lcg 42) "1s" 1000000000 rfl

/-! ## Execute -/

/-- C2 (the code at the failing input): `Execute` has no check of the
context before its `select`.  `New("1ns")` returns an executor whose delay
is always 0; called at instant 5 with a context cancelled at instant 0, the
timer of `time.After(0)` can proceed as well as `ctx.Done()`, and when
`select` picks the timer case `Execute` calls the action once and returns
the action's error, not `ctx.Err()`.  The same happens with a delay above
zero (7ns, drawn below 100ns) once the timer has expired when the `select`
is polled (200ns after the timer was created). -/
theorem Execute_done_context_runs_action :
    (New (lcg 0) "1ns" []).2 = none ∧
    (Context.canceledAt 0).Done 5 = true ∧
    (Context.canceledAt 0).Err 5 = some .canceled ∧
    (New (lcg 0) "1ns" []).1.map (fun e =>
      (Execute ⟨.after, 0, 0⟩ e (Context.canceledAt 0) (fun _ => (some (.custom 1), 0)) 5).map
        (fun o => (o.delay, o.ret, o.calls))) =
      some (.ok (0, some (.custom 1), 1)) ∧
    (New (lcg 7) "100ns" []).2 = none ∧
    (New (lcg 7) "100ns" []).1.map (fun e =>
      (Execute ⟨.after, 200, 0⟩ e (Context.canceledAt 0) (fun _ => (some (.custom 1), 0)) 5).map
        (fun o => (o.delay, o.ret, o.calls))) =
      some (.ok (7, some (.custom 1), 1)) :=
  ⟨rfl, rfl, rfl, rfl, rfl, rfl⟩

/-- Where a done context does win: if the context is done when the `select`
is polled and the timer's value has not been delivered by then, `Execute`
returns `ctx.Err()`, which is the context's reason, and does not call the
action. -/
theorem Execute_done_context (rt : Runtime) (e e1 : Executor) (ctx : Context)
    (action : Action) (t0 : Nat) (delay : Duration)
    (hdraw : randomDelay e = .ok (delay, e1))
    (hdone : ctx.Done (t0 + rt.pollLag) = true)
    (hlate : t0 + rt.pollLag < t0 + delay.toNat + rt.timerLag) :
    Execute rt e ctx action t0 =
        .ok ⟨ctx.Err (t0 + rt.pollLag), 0, delay, t0 + rt.pollLag, e1⟩ ∧
      ctx.Err (t0 + rt.pollLag) = some ctx.reason := by
  constructor
  · simp [Execute, hdraw, selectCase_done_first rt ctx t0 delay hdone hlate]
  · simp [Context.Err, hdone]

/-- C4 (as stated, refuted): `New("1ns")` returns an executor whose delay is
always 0.  `Execute` is called at instant 5, so the delay has elapsed and
the timer's value is delivered at instant 5; the context is cancelled at
instant 6, after that; the `select` is polled at instant 7.  Both cases can
then proceed, and when `select` picks `ctx.Done()`, `Execute` returns
`ctx.Err()` and never calls the action. -/
theorem Execute_elapsed_delay_skips_action :
    (New (lcg 0) "1ns" []).2 = none ∧
    (Context.canceledAt 6).Done 5 = false ∧
    (New (lcg 0) "1ns" []).1.map (fun e =>
      (Execute ⟨.done, 2, 0⟩ e (Context.canceledAt 6) (fun _ => (some (.custom 1), 0)) 5).map
        (fun o => (o.delay, o.ret, o.calls, o.finish))) =
      some (.ok (0, some .canceled, 0, 7)) :=
  ⟨rfl, rfl, rfl⟩

/-- C4 (amended): when the `select` receives the timer's value before the
cancellation signal fires (the signal never fires, or fires after both the
instant the timer's value is delivered and the instant the `select` is
polled), `Execute` calls the action exactly once, at the later of those two
instants, and returns the very value that call returned: the same error,
or nil. -/
theorem Execute_runs_action (rt : Runtime) (e e1 : Executor) (ctx : Context)
    (action : Action) (t0 : Nat) (delay : Duration)
    (hdraw : randomDelay e = .ok (delay, e1))
    (hfirst : ∀ c, ctx.doneAt = some c →
      t0 + delay.toNat + rt.timerLag < c ∧ t0 + rt.pollLag < c) :
    ∃ out, Execute rt e ctx action t0 = .ok out ∧ out.calls = 1 ∧
      out.ret = (action (max (t0 + delay.toNat + rt.timerLag) (t0 + rt.pollLag))).1 ∧
      out.finish = max (t0 + delay.toNat + rt.timerLag) (t0 + rt.pollLag) +
        (action (max (t0 + delay.toNat + rt.timerLag) (t0 + rt.pollLag))).2 := by
  refine ⟨⟨(action (max (t0 + delay.toNat + rt.timerLag) (t0 + rt.pollLag))).1, 1, delay,
    max (t0 + delay.toNat + rt.timerLag) (t0 + rt.pollLag) +
      (action (max (t0 + delay.toNat + rt.timerLag) (t0 + rt.pollLag))).2, e1⟩,
    ?_, rfl, rfl, rfl⟩
  simp [Execute, hdraw, selectCase_timer_first rt ctx t0 delay hfirst]

theorem Execute_runs_action_witness :
    ∃ out, Execute ⟨.done, 40, 1000⟩ ⟨1000000000, lcg 123456789⟩
        (Context.canceledAt 999999999) (fun _ => (some (.custom 7), 250)) 5 = .ok out ∧
      out.calls = 1 ∧
      out.ret = some (.custom 7) ∧
      out.finish = max (5 + (123456789 : Int).toNat + 1000) (5 + 40) + 250 :=
  Execute_runs_action ⟨.done, 40, 1000⟩ ⟨1000000000, lcg 123456789⟩
    ⟨1000000000, lcg (lcgNext 123456789)⟩ (Context.canceledAt 999999999)
    (fun _ => (some (.custom 7), 250)) 5 123456789 rfl
    (by intro c hc; cases hc; decide)

/-! ## ExecuteAsync -/

/-- C8: for every executor on which a delay is drawn, the inner `Execute`
returns and `ExecuteAsync` leaves exactly one `Result` in its channel of
capacity 1 (the send does not block).  The `Error` of that `Result` is the
value `Execute` returns for the same cancellation signal, action and drawn
delay: `ctx.Err()` when the action was not called, the action's own return
value, as it is, when it was called (once). -/
theorem ExecuteAsync_publishes_once (wall : Nat → Time) (rt : Runtime) (e e1 : Executor)
    (ctx : Context) (action : Action) (t0 : Nat) (delay : Duration)
    (hdraw : randomDelay e = .ok (delay, e1)) :
    ∃ out res, Execute rt e ctx action t0 = .ok out ∧ out.delay = delay ∧
      ExecuteAsync wall rt e ctx action t0 = .ok (some ⟨1, [res]⟩, out) ∧
      res.Error = out.ret ∧
      (out.calls = 0 ∨ out.calls = 1) ∧
      (out.calls = 0 → res.Error = ctx.Err out.finish) ∧
      (out.calls = 1 → ∃ t, res.Error = (action t).1 ∧ out.finish = t + (action t).2) := by
  obtain ⟨out, h, hdel, _, hcalls⟩ := Execute_returns rt e e1 ctx action t0 delay hdraw
  obtain ⟨d1, e2, t, _, hcase⟩ := Execute_cases rt e ctx action t0 out h
  refine ⟨out, ⟨out.ret, wall t0, wall out.finish⟩, h, hdel, ?_, rfl, hcalls, ?_, ?_⟩
  · simp [ExecuteAsync, h, Chan.make, Chan.send]
  · intro hc
    rcases hcase with ⟨_, ho⟩ | ⟨_, ho⟩
    · subst ho
      rfl
    · subst ho
      simp at hc
  · intro hc
    rcases hcase with ⟨_, ho⟩ | ⟨_, ho⟩
    · subst ho
      simp at hc
    · subst ho
      exact ⟨t, rfl, rfl⟩

theorem ExecuteAsync_publishes_once_witness :
    ∃ out res, Execute ⟨.done, 0, 0⟩ ⟨1000000000, lcg 123456789⟩ Context.Background
        (fun _ => (some (.custom 7), 250)) 5 = .ok out ∧ out.delay = 123456789 ∧
      ExecuteAsync (fun t => (t : Int) + 1) ⟨.done, 0, 0⟩ ⟨1000000000, lcg 123456789⟩
        Context.Background (fun _ => (some (.custom 7), 250)) 5 =
        .ok (some ⟨1, [res]⟩, out) ∧
      res.Error = out.ret ∧
      (out.calls = 0 ∨ out.calls = 1) ∧
      (out.calls = 0 → res.Error = Context.Background.Err out.finish) ∧
      (out.calls = 1 → ∃ t,
        res.Error = ((fun _ => (some (.custom 7), 250)) t : Option Error × Nat).1 ∧
        out.finish = t + ((fun _ => (some (.custom 7), 250)) t : Option Error × Nat).2) :=
  ExecuteAsync_publishes_once (fun t => (t : Int) + 1) ⟨.done, 0, 0⟩
    ⟨1000000000, lcg 123456789⟩
    ⟨1000000000, lcg (lcgNext 123456789)⟩ Context.Background
    (fun _ => (some (.custom 7), 250)) 5 123456789 rfl

/-- C9: for every `ExecuteAsync` on an executor on which a delay is drawn
(the action then succeeding, failing, or the wait being cancelled), the
inner `Execute` returns and the one delivered `Result` has `StartTime` read
at the start of the goroutine, before the wait, and `EndTime` read at the
instant that `Execute` returns, which is not earlier (and, when the action
ran, is the instant the action returned).  So under a non-decreasing clock
`EndTime >= StartTime`, and both timestamps are non-zero, the clock never
reading the zero time. -/
theorem ExecuteAsync_timestamps (wall : Nat → Time) (rt : Runtime) (e e1 : Executor)
    (ctx : Context) (action : Action) (t0 : Nat) (delay : Duration)
    (hdraw : randomDelay e = .ok (delay, e1))
    (hmono : Monotone wall) (hset : ∀ t, wall t ≠ 0) :
    ∃ out res, Execute rt e ctx action t0 = .ok out ∧
      ExecuteAsync wall rt e ctx action t0 = .ok (some ⟨1, [res]⟩, out) ∧
      res.Error = out.ret ∧
      res.StartTime = wall t0 ∧ res.EndTime = wall out.finish ∧ t0 ≤ out.finish ∧
      (selectCase rt ctx t0 delay).2 ≤ out.finish ∧
      (out.calls = 1 → out.finish = (selectCase rt ctx t0 delay).2 +
        (action (selectCase rt ctx t0 delay).2).2) ∧
      res.StartTime ≤ res.EndTime ∧
      res.StartTime.IsZero = false ∧ res.EndTime.IsZero = false := by
  obtain ⟨out, h, hdel, _, _⟩ := Execute_returns rt e e1 ctx action t0 delay hdraw
  have hfin := Execute_finish_ge rt e ctx action t0 out h
  obtain ⟨d1, e2, t, hd1, hcase⟩ := Execute_cases rt e ctx action t0 out h
  have hdd : d1 = delay := by
    rw [hdraw] at hd1
    injection hd1 with hd1
    exact (congrArg Prod.fst hd1).symm
  subst hdd
  refine ⟨out, ⟨out.ret, wall t0, wall out.finish⟩, h, ?_, rfl, rfl, rfl, hfin, ?_, ?_,
    hmono hfin, ?_, ?_⟩
  · simp [ExecuteAsync, h, Chan.make, Chan.send]
  · rcases hcase with ⟨hs, ho⟩ | ⟨hs, ho⟩
    · subst ho
      rw [hs]
    · subst ho
      rw [hs]
      exact Nat.le_add_right _ _
  · intro hc
    rcases hcase with ⟨hs, ho⟩ | ⟨hs, ho⟩
    · subst ho
      simp at hc
    · subst ho
      rw [hs]
  · simpa [Time.IsZero] using hset t0
  · simpa [Time.IsZero] using hset out.finish

theorem ExecuteAsync_timestamps_witness :
    ∃ out res, Execute ⟨.after, 3, 20⟩ ⟨1000000000, lcg 123456789⟩
        (Context.canceledAt 100) (fun _ => (none, 250)) 5 = .ok out ∧
      ExecuteAsync (fun t => (t : Int) + 1) ⟨.after, 3, 20⟩ ⟨1000000000, lcg 123456789⟩
        (Context.canceledAt 100) (fun _ => (none, 250)) 5 = .ok (some ⟨1, [res]⟩, out) ∧
      res.Error = out.ret ∧
      res.StartTime = ((5 : Nat) : Int) + 1 ∧
      res.EndTime = (fun t : Nat => (t : Int) + 1) out.finish ∧ 5 ≤ out.finish ∧
      (selectCase ⟨.after, 3, 20⟩ (Context.canceledAt 100) 5 123456789).2 ≤ out.finish ∧
      (out.calls = 1 → out.finish =
        (selectCase ⟨.after, 3, 20⟩ (Context.canceledAt 100) 5 123456789).2 +
        ((fun _ => (none, 250)) (selectCase ⟨.after, 3, 20⟩ (Context.canceledAt 100) 5
          123456789).2 : Option Error × Nat).2) ∧
      res.StartTime ≤ res.EndTime ∧
      res.StartTime.IsZero = false ∧ res.EndTime.IsZero = false :=
  ExecuteAsync_timestamps (fun t => (t : Int) + 1) ⟨.after, 3, 20⟩
    ⟨1000000000, lcg 123456789⟩ ⟨1000000000, lcg (lcgNext 123456789)⟩
    (Context.canceledAt 100) (fun _ => (none, 250)) 5 123456789 rfl
    (fun _ _ hab => Int.add_le_add_right (Int.ofNat_le.mpr hab) 1)
    (fun t => by show (t : Int) + 1 ≠ 0; omega)

end Randexc
